import Mathlib

/-!
Verification development for the gitignore-style path-ignore rule engine
(`fawltydeps/gitignore_parser.py`).

The Python source is shallowly embedded on `List Char` (Python `str`) and
`List String` (path segments).  Python exceptions are modelled with
`Except PyErr`; `IndexError` is raised exactly where the source indexes into
a string (`pattern[0]`, `pattern[-1]`, `stuff[0]`), and `ValueError` exactly
where the source raises it (`base_path` contract check, `Path.relative_to`).
The compiled regular expression is embedded as a token list `GRegex` built by
`fnmatch_pathname_to_regex` in one-to-one correspondence with the strings the
source appends to `res`, and `re.search` is given its standard existential
matching semantics by `reSearch`.  The filesystem is modelled symlink-free,
so `Path.resolve` coincides with lexical normalization (`os.path.abspath`);
`$` is modelled as strict end-of-string (paths containing a newline are out
of scope).
-/

/-- Python exception kinds raised by the embedded code. -/
inductive PyErr
  | indexError
  | valueError
deriving DecidableEq, Repr

/-- Result type of fallible Python code. -/
abbrev Exc (α : Type) : Type := Except PyErr α

/-- Whether an `Exc` computation succeeded. -/
def excIsOk {α : Type} : Exc α → Bool
  | .ok _ => true
  | .error _ => false

/-- Python `str.strip` / `str.rstrip` whitespace set (for the characters
that can occur on a single line). -/
def isPySpace (c : Char) : Bool :=
  c == ' ' || c == '\t' || c == '\n' || c == '\r' ||
    c == Char.ofNat 11 || c == Char.ofNat 12

/-- Python `str.strip()` on a list of characters. -/
def pyStrip (s : List Char) : List Char :=
  ((s.dropWhile isPySpace).reverse.dropWhile isPySpace).reverse

/-- Python `str.rstrip()` on a list of characters. -/
def pyRstrip (s : List Char) : List Char :=
  (s.reverse.dropWhile isPySpace).reverse

/-- Embeds `re.sub(r"([^/])\*{2,}", r"\1*", pattern)`: a non-slash character
followed by a run of two or more asterisks is replaced by the character and a
single asterisk; scanning resumes after the consumed run.  The Boolean mode is
`true` while skipping the remainder of a consumed asterisk run. -/
def sub1Go : Bool → List Char → List Char
  | _, [] => []
  | mode, c :: rest =>
    if mode ∧ c = '*' then sub1Go true rest
    else if c = '/' then '/' :: sub1Go false rest
    else
      match rest with
      | r1 :: r2 :: rest2 =>
        if r1 = '*' ∧ r2 = '*' then c :: '*' :: sub1Go true rest2
        else c :: sub1Go false (r1 :: r2 :: rest2)
      | r => c :: sub1Go false r

/-- First multi-asterisk collapse: `re.sub(r"([^/])\*{2,}", r"\1*", ·)`. -/
def sub1 (p : List Char) : List Char := sub1Go false p

/-- Embeds `re.sub(r"\*{2,}([^/])", r"*\1", pattern)`.  The state `some k`
means a run of `k` asterisks has been consumed from the input: if a non-slash
character follows a run of length `≥ 2`, the whole run and that character are
replaced by `*` and the character (for `k = 1` the emitted text is the same);
a run of length `≥ 3` followed by `/` or end-of-string matches with the last
asterisk as the `[^/]` group and collapses to `**`. -/
def sub2Go : Option Nat → List Char → List Char
  | none, [] => []
  | none, c :: rest =>
    if c = '*' then sub2Go (some 1) rest
    else c :: sub2Go none rest
  | some k, [] => if k = 1 then ['*'] else ['*', '*']
  | some k, c :: rest =>
    if c = '*' then sub2Go (some (k + 1)) rest
    else if c = '/' then
      (if 3 ≤ k then ['*', '*'] else List.replicate k '*') ++ '/' :: sub2Go none rest
    else '*' :: c :: sub2Go none rest

/-- Second multi-asterisk collapse: `re.sub(r"\*{2,}([^/])", r"*\1", ·)`. -/
def sub2 (p : List Char) : List Char := sub2Go none p

/-- Embeds the trailing-space loop of `rule_from_pattern` (source lines
106-116).  The Lean index argument is the Python loop variable `i`; the loop
runs while `i > 1` and `pattern[i] == ' '`.  A space preceded by a backslash
has the backslash removed (`pattern[:i-1] + pattern[i:]`) and disables any
further stripping; that branch decrements `i` twice (once in the branch, once
at the loop end), skipping past the kept space.  An unescaped space is
removed (`pattern[:i]`) only while the flag is still set. -/
def stripSpacesLoop : List Char → Nat → Bool → List Char
  | p, 0, _ => p
  | p, 1, _ => p
  | p, i + 2, flag =>
    if p[i + 2]? = some ' ' then
      if p[i + 1]? = some '\\' then
        stripSpacesLoop (p.take (i + 1) ++ p.drop (i + 2)) i false
      else if flag then
        stripSpacesLoop (p.take (i + 2)) (i + 1) flag
      else
        stripSpacesLoop p (i + 1) flag
    else p

/-- Trailing-space handling of `rule_from_pattern`, entered with
`i = len(pattern) - 1` and `striptrailingspaces = True`. -/
def stripSpaces (p : List Char) : List Char :=
  stripSpacesLoop p (p.length - 1) true

/-- One token of the compiled regular expression, mirroring one string the
source appends to `res` in `fnmatch_pathname_to_regex` (with `os.sep = '/'`
and `os.altsep = None`, so `seps_group = "[/]"` and `nonsep = "[^/]"`):
`lit c` is `re.escape(c)`, `nonsep` is `[^/]`, `nonsepStar` is `[^/]*`,
`dotStar` is `.*`, `anySegs` is `(.*[/])?`, `sep` is `[/]`, and `cls stuff`
is the character class `[stuff]`.  `seg` is the non-optional group `.*[/]`;
it is never produced by the translation and is used only by the matcher to
expand `anySegs`. -/
inductive RTok
  | lit (c : Char)
  | nonsep
  | nonsepStar
  | dotStar
  | anySegs
  | sep
  | cls (stuff : List Char)
  | seg
deriving DecidableEq, Repr

/-- The suffix appended after the token list: `$`, `/$`, or `($|\/)`. -/
inductive RTail
  | eos
  | sepEos
  | eosOrSep
deriving DecidableEq, Repr

/-- A compiled regular expression: the leading `^` (anchored) or `(^|[/])`
(not anchored), the token body, and the suffix. -/
structure GRegex where
  anchored : Bool
  body : List RTok
  tail : RTail
deriving DecidableEq, Repr

/-- Splits a character list at the first `]`, returning the characters before
it and the characters after it. -/
def scanClose : List Char → Option (List Char × List Char)
  | [] => none
  | c :: rest =>
    if c = ']' then some ([], rest)
    else (scanClose rest).map (fun ab => (c :: ab.1, ab.2))

/-- Embeds the character-class scan of `fnmatch_pathname_to_regex` (source
lines 208-219).  `rest` holds the characters after the opening `[`; a leading
`!` is skipped, a `]` immediately after it is skipped, and the scan then runs
to the next `]`.  Returns the class contents `pattern[i:j]` and the
characters after the closing `]`, or `none` when no `]` closes the class. -/
def classSpan (rest : List Char) : Option (List Char × List Char) :=
  match rest with
  | '!' :: ']' :: r => (scanClose r).map (fun ab => ('!' :: ']' :: ab.1, ab.2))
  | '!' :: r => (scanClose r).map (fun ab => ('!' :: ab.1, ab.2))
  | ']' :: r => (scanClose r).map (fun ab => (']' :: ab.1, ab.2))
  | r => scanClose r

/-- Embeds the `stuff` post-processing of the class branch (source lines
218-224): backslashes are doubled, path separators are removed, `stuff[0]`
raises `IndexError` on an empty result, a leading `!` becomes `^`, and a
leading `^` is backslash-escaped. -/
def mkStuff (inside : List Char) : Exc (List Char) :=
  let s := (inside.flatMap fun c => if c = '\\' then ['\\', '\\'] else [c]).filter
    (fun c => c ≠ '/')
  match s with
  | [] => .error .indexError
  | '!' :: rest => .ok ('^' :: rest)
  | '^' :: _ => .ok ('\\' :: s)
  | _ => .ok s

/-- Embeds the main `while` loop of `fnmatch_pathname_to_regex` (source lines
187-226), producing a regex token per consumed piece of the fnmatch pattern.
The fuel argument is initialized to the pattern length and only decreases as
characters are consumed, so it never runs out (the `0` case is unreachable
from `fnBody`). -/
def fnBodyF : Nat → List Char → Exc (List RTok)
  | _, [] => .ok []
  | 0, _ :: _ => .ok []
  | f + 1, '*' :: rest =>
    match rest with
    | '*' :: rest2 =>
      match rest2 with
      | '/' :: rest3 => do pure (RTok.anySegs :: (← fnBodyF f rest3))
      | _ => do pure (RTok.dotStar :: (← fnBodyF f rest2))
    | _ => do pure (RTok.nonsepStar :: (← fnBodyF f rest))
  | f + 1, '?' :: rest => do pure (RTok.nonsep :: (← fnBodyF f rest))
  | f + 1, '/' :: rest => do pure (RTok.sep :: (← fnBodyF f rest))
  | f + 1, '[' :: rest =>
    match classSpan rest with
    | none => do pure (RTok.lit '[' :: (← fnBodyF f rest))
    | some (inside, after) => do
      let stuff ← mkStuff inside
      pure (RTok.cls stuff :: (← fnBodyF f after))
  | f + 1, c :: rest => do pure (RTok.lit c :: (← fnBodyF f rest))

/-- Token body of the regex compiled from an fnmatch pattern. -/
def fnBody (p : List Char) : Exc (List RTok) := fnBodyF p.length p

/-- The suffix chosen by `fnmatch_pathname_to_regex` (source lines 231-236):
`$` when not directory-only, `/$` for directory-only negation rules, and
`($|\/)` otherwise. -/
def tailFor (directory_only negation : Bool) : RTail :=
  if !directory_only then RTail.eos
  else if negation then RTail.sepEos
  else RTail.eosOrSep

/-- Embeds `fnmatch_pathname_to_regex`: translates the fnmatch-style pattern
into the token body, prepends the anchor, and appends the suffix. -/
def fnmatch_pathname_to_regex (pattern : List Char)
    (directory_only negation : Bool) (anchored : Bool) : Exc GRegex := do
  let body ← fnBody pattern
  pure { anchored := anchored, body := body, tail := tailFor directory_only negation }

/-- Membership of a character in the items of a (non-negated) regex character
class body, with Python `re` semantics restricted to what the translation can
produce: backslash-escaped literals and `a-b` ranges. -/
def clsMem : List Char → Char → Bool
  | [], _ => false
  | '\\' :: d :: rest, c => c == d || clsMem rest c
  | d :: '-' :: e :: rest, c =>
      if e = '\\' then (d ≤ c && c ≤ e) || clsMem rest c
      else (d ≤ c && c ≤ e) || clsMem rest c
  | d :: rest, c => c == d || clsMem rest c

/-- Matching of one character against the class `[stuff]`: a leading `^`
negates (the translation escapes a literal leading `^`, so an unescaped
leading `^` is always the negation produced from `!`). -/
def classMatch (stuff : List Char) (c : Char) : Bool :=
  match stuff with
  | '^' :: rest => !clsMem rest c
  | _ => clsMem stuff c

/-- Whether the regex suffix accepts with `rest` of the search string left:
`$` needs end-of-string, `/$` needs exactly a final separator, and `($|\/)`
accepts at end-of-string or before a separator. -/
def tailOk : RTail → List Char → Bool
  | .eos, rest => rest.isEmpty
  | .sepEos, rest => rest == ['/']
  | .eosOrSep, rest => rest.isEmpty || rest.head? == some '/'

/-- Matching of a token list against the empty string: only star-like tokens
can be skipped, then the suffix must accept. -/
def matchNil (t : RTail) : List RTok → Bool
  | [] => tailOk t []
  | .nonsepStar :: ts => matchNil t ts
  | .dotStar :: ts => matchNil t ts
  | .anySegs :: ts => matchNil t ts
  | _ :: _ => false

/-- Matching of a token list against the non-empty string `c :: s`, given the
continuation `k ts = (ts matches s)`.  `anySegs` (`(.*[/])?`) either is
skipped, or closes immediately on `c = '/'`, or consumes `c` into its `.*`
and continues as `seg` (`.*[/]`). -/
def matchConsAux (k : List RTok → Bool) (c : Char) (s : List Char) (t : RTail) :
    List RTok → Bool
  | [] => tailOk t (c :: s)
  | .lit d :: ts => c == d && k ts
  | .nonsep :: ts => c != '/' && k ts
  | .sep :: ts => c == '/' && k ts
  | .cls stuff :: ts => classMatch stuff c && k ts
  | .nonsepStar :: ts =>
      matchConsAux k c s t ts || (c != '/' && k (.nonsepStar :: ts))
  | .dotStar :: ts => matchConsAux k c s t ts || k (.dotStar :: ts)
  | .anySegs :: ts =>
      matchConsAux k c s t ts || (c == '/' && k ts) || k (.seg :: ts)
  | .seg :: ts => (c == '/' && k ts) || k (.seg :: ts)

/-- Existential matching semantics of a token body followed by the suffix
against a whole string: true iff some way of consuming the string through the
tokens reaches a point the suffix accepts. -/
def matchStr : List Char → RTail → List RTok → Bool
  | [], t, toks => matchNil t toks
  | c :: s, t, toks => matchConsAux (matchStr s t) c s t toks

/-- Search semantics of the `(^|[/])` prefix beyond position 0: the `[/]`
alternative consumes a separator somewhere in the string and the body must
match what follows it. -/
def searchSep (t : RTail) (body : List RTok) : List Char → Bool
  | [] => false
  | c :: s => (c == '/' && matchStr s t body) || searchSep t body s

/-- Embeds `re.search(regex, rel_path)` for the regexes the translation
produces: with a leading `^` the body must match from position 0; with
`(^|[/])` it may match from position 0 or right after any separator. -/
def reSearch (g : GRegex) (s : List Char) : Bool :=
  if g.anchored then matchStr s g.tail g.body
  else matchStr s g.tail g.body || searchSep g.tail g.body s

/-- A Python `pathlib` path value: the absolute flag and the list of
components (for `Path("a/b")`, `segs = ["a", "b"]`). -/
structure PyPath where
  absolute : Bool
  segs : List String
deriving DecidableEq, Repr

/-- One step of lexical path normalization (`os.path.normpath` component
processing on an absolute path): empty and `.` components vanish, `..` pops
(or vanishes at the root), anything else is appended. -/
def normStep (acc : List String) (c : String) : List String :=
  if c = "" || c = "." then acc
  else if c = ".." then acc.dropLast
  else acc ++ [c]

/-- Lexical normalization of a component list rooted at `/`. -/
def normSegs (l : List String) : List String := l.foldl normStep []

/-- Embeds `_normalize_path` (source lines 240-247): `Path(abspath(path))`,
i.e. join with the current working directory when relative, then normalize
lexically without resolving symlinks.  `cwd` is the (already normalized)
current working directory. -/
def _normalize_path (cwd : List String) (p : PyPath) : List String :=
  normSegs (if p.absolute then p.segs else cwd ++ p.segs)

/-- Embeds `Path.resolve()` on a symlink-free filesystem: make absolute and
normalize lexically. -/
def PyPath.resolve (cwd : List String) (p : PyPath) : PyPath :=
  ⟨true, normSegs (if p.absolute then p.segs else cwd ++ p.segs)⟩

/-- Embeds `Path.relative_to`: the components of `p` relative to `base`, or
`ValueError` when `p` does not lie inside `base`. -/
def relative_to (p base : List String) : Exc (List String) :=
  if base.isPrefixOf p then .ok (p.drop base.length) else .error .valueError

/-- Components joined with `/` (the `str()` of a multi-component path). -/
def joinSegs : List String → List Char
  | [] => []
  | [s] => s.data
  | s :: rest => s.data ++ '/' :: joinSegs rest

/-- The `str()` of a relative `Path` value: `.` for the empty path. -/
def strOfRel (segs : List String) : List Char :=
  if segs.isEmpty then ['.'] else joinSegs segs

/-- The `str()` of an absolute `Path` value. -/
def strOfAbs (segs : List String) : List Char := '/' :: joinSegs segs

/-- A query argument of type `PathOrStr = Union[str, Path]`.  A `str`
argument additionally records whether its final character is `/` (the
trailing-separator hint the source reads with `abs_path[-1] == "/"`; this
models non-empty path strings).  A `Path` value cannot carry the hint, since
`Path()` strips trailing separators. -/
inductive PathOrStr
  | str (p : PyPath) (trailingSlash : Bool)
  | path (p : PyPath)
deriving DecidableEq, Repr

/-- The path value carried by a `PathOrStr`. -/
def rawOf : PathOrStr → PyPath
  | .str p _ => p
  | .path p => p

/-- Embeds `isinstance(abs_path, str) and abs_path[-1] == "/"`. -/
def isStrWithSlash : PathOrStr → Bool
  | .str _ h => h
  | .path _ => false

/-- A single ignore rule, parsed from a gitignore pattern string; mirrors the
`Rule` NamedTuple of the source, with `regex` as the embedded token regex and
`base_path` as a normalized absolute component list. -/
structure Rule where
  pattern : List Char
  regex : GRegex
  negation : Bool
  directory_only : Bool
  anchored : Bool
  base_path : Option (List String)
  source : Option (List Char × Nat)
deriving DecidableEq, Repr

/-- Embeds source lines 157-164 of `Rule.match`: re-append the
trailing-separator hint for negation rules given a `str` query, strip a
leading `./`, and search the compiled regex in the relative string. -/
def ruleSearch (r : Rule) (q : PathOrStr) (rel : List Char) : Bool :=
  let rel := if r.negation && isStrWithSlash q then rel ++ ['/'] else rel
  let rel := if rel.take 2 = ['.', '/'] then rel.drop 2 else rel
  reSearch r.regex rel

/-- Embeds `Rule.match` (the source's `match` method, source lines 150-165):
normalize the query, make it relative to `base_path` when set (propagating
the `ValueError` of `relative_to`), then run `ruleSearch` on the resulting
relative string. -/
def Rule.matches (cwd : List String) (r : Rule) (q : PathOrStr) : Exc Bool :=
  let norm := _normalize_path cwd (rawOf q)
  match r.base_path with
  | some bp =>
    match relative_to norm bp with
    | .error e => .error e
    | .ok relSegs => .ok (ruleSearch r q (strOfRel relSegs))
  | none => .ok (ruleSearch r q (strOfAbs norm))

/-- Embeds the body of `rule_from_pattern` after the `base_path` contract
check (source lines 67-128): comment/blank handling, `!` stripping,
multi-asterisk collapsing, the bare-`/` special case, the
`directory_only`/`anchored` flags, the leading-`/`, leading-`**`,
trailing-`/` and leading-escape strips (each `pattern[0]`/`pattern[-1]`
access raising `IndexError` on an empty string exactly as in Python),
trailing-space handling, and the regex translation. -/
def rule_body (pattern : List Char) (base_path : Option PyPath)
    (source : Option (List Char × Nat)) (cwd : List String) :
    Exc (Option Rule) :=
  -- if pattern.strip() == "" or pattern[0] == "#": return None
  if pyStrip pattern = [] || pattern.head? == some '#' then .ok none
  else
    let orig_pattern := pattern
    -- leading bang
    let negation := pattern.head? == some '!'
    let pattern := if negation then pattern.tail else pattern
    -- multi-asterisk collapsing
    let pattern := sub2 (sub1 pattern)
    -- if pattern.rstrip() == "/": return None
    if pyRstrip pattern = ['/'] then .ok none
    else
      -- directory_only = pattern[-1] == "/"
      match pattern.getLast? with
      | none => .error .indexError
      | some lastC =>
        let directory_only := lastC == '/'
        -- anchored = "/" in pattern[:-1]
        let anchored := pattern.dropLast.contains '/'
        -- if pattern[0] == "/": pattern = pattern[1:]  (pattern here is non-empty)
        let pattern := if pattern.head? == some '/' then pattern.tail else pattern
        -- if pattern[0] == "*" and len(pattern) >= 2 and pattern[1] == "*":
        match pattern with
        | [] => .error .indexError
        | c0 :: rest0 =>
          let pa : List Char × Bool :=
            if c0 == '*' && rest0.head? == some '*' then (rest0.tail, false)
            else (c0 :: rest0, anchored)
          let pattern := pa.1
          let anchored := pa.2
          -- if pattern[0] == "/": pattern = pattern[1:]
          match pattern with
          | [] => .error .indexError
          | c1 :: rest1 =>
            let pattern := if c1 == '/' then rest1 else c1 :: rest1
            -- if pattern[-1] == "/": pattern = pattern[:-1]
            match pattern.getLast? with
            | none => .error .indexError
            | some c2 =>
              let pattern := if c2 == '/' then pattern.dropLast else pattern
              -- if pattern[0] == "\\" and pattern[1] in ("#", "!"):
              match pattern with
              | [] => .error .indexError
              | c3 :: rest3 =>
                let unescaped : Exc (List Char) :=
                  if c3 == '\\' then
                    match rest3 with
                    | [] => .error .indexError
                    | d :: _ =>
                      .ok (if d == '#' || d == '!' then rest3 else c3 :: rest3)
                  else .ok (c3 :: rest3)
                match unescaped with
                | .error e => .error e
                | .ok pattern =>
                  -- trailing spaces, then regex translation
                  let pattern := stripSpaces pattern
                  match fnmatch_pathname_to_regex pattern directory_only negation
                      anchored with
                  | .error e => .error e
                  | .ok regex =>
                    .ok (some {
                      pattern := orig_pattern
                      regex := regex
                      negation := negation
                      directory_only := directory_only
                      anchored := anchored
                      base_path := base_path.map (fun bp => _normalize_path cwd bp)
                      source := source })

/-- Embeds `rule_from_pattern` (source lines 53-128): the `base_path`
contract check (`base_path != Path(base_path).resolve()` raises
`ValueError`), then the pattern-transformation body. -/
def rule_from_pattern (cwd : List String) (pattern : List Char)
    (base_path : Option PyPath) (source : Option (List Char × Nat)) :
    Exc (Option Rule) :=
  match base_path with
  | some bp =>
    if bp ≠ PyPath.resolve cwd bp then .error .valueError
    else rule_body pattern base_path source cwd
  | none => rule_body pattern base_path source cwd

/-- Embeds `any(r.match(file_path) for r in rules)`: short-circuiting OR in
file order; an exception from a rule's match propagates. -/
def anyMatch (cwd : List String) (q : PathOrStr) : List Rule → Exc Bool
  | [] => pure false
  | r :: rs => do
    if ← r.matches cwd q then pure true else anyMatch cwd q rs

/-- Embeds the loop of `handle_negation` over an already-reversed rule list:
the first rule that matches decides (`not rule.negation`); `False` when
nothing matches.  An exception from a rule's match propagates. -/
def handleNegAux (cwd : List String) (q : PathOrStr) : List Rule → Exc Bool
  | [] => pure false
  | r :: rs => do
    if ← r.matches cwd q then pure (!r.negation) else handleNegAux cwd q rs

/-- Embeds the predicate returned by `parse_gitignore` given the compiled
rule list (source lines 39-50): plain `any` when no rule negates, otherwise
`handle_negation` walking the rules in reverse file order. -/
def ignore_predicate (cwd : List String) (rules : List Rule) (q : PathOrStr) :
    Exc Bool :=
  if !rules.any (fun r => r.negation) then anyMatch cwd q rules
  else handleNegAux cwd q rules.reverse

/-- Test probe: compile one pattern against base path `/` and the empty cwd;
`none` when the line yields no rule or compilation raises. -/
def compiledRule (pat : String) : Option Rule :=
  match rule_from_pattern [] pat.data (some ⟨true, []⟩) none with
  | .ok r => r
  | .error _ => none

/-- Test probe: an absolute `Path` query with the given components. -/
def absQuery (segs : List String) : PathOrStr := .path ⟨true, segs⟩

/-- Test probe: compile one pattern (base path `/`) and match it against an
absolute query path; `none` when compilation or matching raises or the line
yields no rule. -/
def tryMatch (pat : String) (q : PathOrStr) : Option Bool :=
  match rule_from_pattern [] pat.data (some ⟨true, []⟩) none with
  | .ok (some r) =>
    match r.matches [] q with
    | .ok b => some b
    | .error _ => none
  | _ => none

/-- The Boolean outcome of a rule's match, `false` standing in for an
exception (used only to state results about runs where no exception
occurs). -/
def matchOk (cwd : List String) (q : PathOrStr) (r : Rule) : Bool :=
  match r.matches cwd q with
  | .ok b => b
  | .error _ => false

/-- The leading-slash strip of `rule_from_pattern` (source lines 92-93). -/
def stripLeadSlash (q : List Char) : List Char :=
  if q.head? == some '/' then q.tail else q

/-- Whether a pattern starts with two asterisks (source line 94). -/
def startsStarStar (q : List Char) : Bool :=
  q.head? == some '*' && q.tail.head? == some '*'

/-- The pattern after `!`-stripping and multi-asterisk collapsing (steps 2-3
of the compiler), the form claim C4 quantifies over. -/
def collapsed (p : List Char) : List Char :=
  sub2 (sub1 (if p.head? == some '!' then p.tail else p))

/-- The anchoring rule exactly as claim C4 states it: `anchored` iff a `/`
occurs anywhere except as the sole trailing character, except that a pattern
beginning with `**` (after `!`-stripping and collapsing) is forced
unanchored. -/
def claimAnchoredC4 (p : List Char) : Bool :=
  if startsStarStar (collapsed p) then false
  else (collapsed p).dropLast.contains '/'

/-- The anchoring the code actually computes: as claim C4, except that the
`**` test is applied after also stripping a single leading `/`. -/
def codeAnchored (p : List Char) : Bool :=
  if startsStarStar (stripLeadSlash (collapsed p)) then false
  else (collapsed p).dropLast.contains '/'

/-- Fallback rule value for total test probes (never used on the probed
inputs). -/
def fallbackRule : Rule :=
  { pattern := [], regex := { anchored := false, body := [], tail := RTail.eos },
    negation := false, directory_only := false, anchored := false,
    base_path := none, source := none }

/-- Test probe: the rule compiled from a pattern with base path `/`
(`fallbackRule` when the line yields no rule). -/
def ruleOf (pat : String) : Rule := (compiledRule pat).getD fallbackRule

/-- Test probe: the rule compiled from a pattern with no base path. -/
def ruleOfNB (pat : String) : Rule :=
  match rule_from_pattern [] pat.data none none with
  | .ok (some r) => r
  | _ => fallbackRule

/-- Demo rule list for the negation evaluator: ignore `*.log`, then
re-include `keep.log`. -/
def demoRules : List Rule := [ruleOf "*.log", ruleOf "!keep.log"]

/-- Demo query for the evaluator: the file `/keep.log`. -/
def demoQ : PathOrStr := absQuery ["keep.log"]

/-- Demo rule whose base path does not contain the demo query. -/
def demoOutRule : Rule :=
  { pattern := ['x'], regex := { anchored := false, body := [RTok.lit 'x'], tail := RTail.eos },
    negation := false, directory_only := false, anchored := false,
    base_path := some ["base"], source := none }

theorem exc_bind_ok {α β : Type} (a : α) (f : α → Exc β) :
    (Except.ok a >>= f : Exc β) = f a := rfl

theorem exc_bind_error {α β : Type} (e : PyErr) (f : α → Exc β) :
    (Except.error e >>= f : Exc β) = Except.error e := rfl

theorem exc_pure {α : Type} (a : α) : (pure a : Exc α) = Except.ok a := rfl

theorem exc_throw {α : Type} (e : PyErr) : (throw e : Exc α) = Except.error e := rfl

theorem scanClose_length :
    ∀ l a b, scanClose l = some (a, b) → b.length < l.length := by
  intro l
  induction l with
  | nil => intro a b h; simp [scanClose] at h
  | cons c rest ih =>
    intro a b h
    by_cases hc : c = ']'
    · simp only [scanClose, if_pos hc, Option.some.injEq, Prod.mk.injEq] at h
      rw [← h.2]
      simp
    · simp only [scanClose, if_neg hc, Option.map_eq_some'] at h
      obtain ⟨⟨a', b'⟩, hab, hEq⟩ := h
      rw [Prod.mk.injEq] at hEq
      obtain ⟨h1, h2⟩ := hEq
      subst h2
      have hlt := ih _ _ hab
      simp only [List.length_cons]
      omega

theorem classSpan_length :
    ∀ rest a b, classSpan rest = some (a, b) → b.length < rest.length := by
  intro rest a b h
  unfold classSpan at h
  split at h <;>
    first
      | (simp only [Option.map_eq_some'] at h
         obtain ⟨⟨a', b'⟩, hab, hEq⟩ := h
         rw [Prod.mk.injEq] at hEq
         obtain ⟨h1, h2⟩ := hEq
         subst h2
         have hlt := scanClose_length _ _ _ hab
         simp only [List.length_cons]
         omega)
      | exact scanClose_length _ _ _ h

theorem matchNil_sepEos : ∀ toks, matchNil RTail.sepEos toks = false := by
  intro toks
  induction toks with
  | nil => rfl
  | cons t ts ih => cases t <;> simp [matchNil, ih]

theorem matchStr_nil_sepEos (toks : List RTok) :
    matchStr [] RTail.sepEos toks = false := matchNil_sepEos toks

theorem matchStr_nonsepStar_iff (t : RTail) :
    ∀ (s : List Char) (ts : List RTok),
      matchStr s t (RTok.nonsepStar :: ts) = true ↔
        ∃ u v, s = u ++ v ∧ (∀ c ∈ u, c ≠ '/') ∧ matchStr v t ts = true := by
  intro s
  induction s with
  | nil =>
    intro ts
    constructor
    · intro h
      exact ⟨[], [], rfl, by simp, h⟩
    · rintro ⟨u, v, huv, -, hv⟩
      obtain ⟨rfl, rfl⟩ := List.append_eq_nil.mp huv.symm
      exact hv
  | cons c s ih =>
    intro ts
    have key : matchStr (c :: s) t (RTok.nonsepStar :: ts) =
        (matchStr (c :: s) t ts || ((c != '/') && matchStr s t (RTok.nonsepStar :: ts))) :=
      rfl
    rw [key]
    simp only [Bool.or_eq_true, Bool.and_eq_true, bne_iff_ne, ne_eq]
    constructor
    · rintro (h | ⟨hc, h⟩)
      · exact ⟨[], c :: s, rfl, by simp, h⟩
      · obtain ⟨u, v, rfl, hu, hv⟩ := (ih ts).mp h
        refine ⟨c :: u, v, rfl, ?_, hv⟩
        intro x hx
        rcases List.mem_cons.mp hx with rfl | hx
        · exact hc
        · exact hu x hx
    · rintro ⟨u, v, huv, hu, hv⟩
      cases u with
      | nil =>
        left
        rw [List.nil_append] at huv
        rw [huv]
        exact hv
      | cons c' u' =>
        rw [List.cons_append] at huv
        injection huv with h1 h2
        subst h1
        subst h2
        right
        refine ⟨hu c (by simp), ?_⟩
        exact (ih ts).mpr ⟨u', v, rfl,
          fun x hx => hu x (List.mem_cons_of_mem _ hx), hv⟩

theorem matchStr_seg_iff (t : RTail) :
    ∀ (s : List Char) (ts : List RTok),
      matchStr s t (RTok.seg :: ts) = true ↔
        ∃ u v, s = u ++ '/' :: v ∧ matchStr v t ts = true := by
  intro s
  induction s with
  | nil =>
    intro ts
    constructor
    · intro h
      simp [matchStr, matchNil] at h
    · rintro ⟨u, v, huv, -⟩
      exact absurd huv.symm (by simp)
  | cons c s ih =>
    intro ts
    have key : matchStr (c :: s) t (RTok.seg :: ts) =
        (((c == '/') && matchStr s t ts) || matchStr s t (RTok.seg :: ts)) := rfl
    rw [key]
    simp only [Bool.or_eq_true, Bool.and_eq_true, beq_iff_eq]
    constructor
    · rintro (⟨rfl, h⟩ | h)
      · exact ⟨[], s, rfl, h⟩
      · obtain ⟨u, v, rfl, hv⟩ := (ih ts).mp h
        exact ⟨c :: u, v, rfl, hv⟩
    · rintro ⟨u, v, huv, hv⟩
      cases u with
      | nil =>
        rw [List.nil_append] at huv
        injection huv with h1 h2
        subst h1; subst h2
        exact Or.inl ⟨rfl, hv⟩
      | cons c' u' =>
        rw [List.cons_append] at huv
        injection huv with h1 h2
        subst h1; subst h2
        exact Or.inr ((ih ts).mpr ⟨u', v, rfl, hv⟩)

theorem matchStr_anySegs_iff (t : RTail) (s : List Char) (ts : List RTok) :
    matchStr s t (RTok.anySegs :: ts) = true ↔
      (matchStr s t ts = true ∨
        ∃ u v, s = u ++ '/' :: v ∧ matchStr v t ts = true) := by
  cases s with
  | nil =>
    constructor
    · intro h
      exact Or.inl h
    · rintro (h | ⟨u, v, huv, -⟩)
      · exact h
      · exact absurd huv.symm (by simp)
  | cons c s =>
    have key : matchStr (c :: s) t (RTok.anySegs :: ts) =
        (matchStr (c :: s) t ts || ((c == '/') && matchStr s t ts)
          || matchStr s t (RTok.seg :: ts)) := rfl
    rw [key]
    simp only [Bool.or_eq_true, Bool.and_eq_true, beq_iff_eq]
    constructor
    · rintro ((h | ⟨rfl, h⟩) | h)
      · exact Or.inl h
      · exact Or.inr ⟨[], s, rfl, h⟩
      · obtain ⟨u, v, rfl, hv⟩ := (matchStr_seg_iff t s ts).mp h
        exact Or.inr ⟨c :: u, v, rfl, hv⟩
    · rintro (h | ⟨u, v, huv, hv⟩)
      · exact Or.inl (Or.inl h)
      · cases u with
        | nil =>
          rw [List.nil_append] at huv
          injection huv with h1 h2
          subst h1; subst h2
          exact Or.inl (Or.inr ⟨rfl, hv⟩)
        | cons c' u' =>
          rw [List.cons_append] at huv
          injection huv with h1 h2
          subst h1; subst h2
          exact Or.inr ((matchStr_seg_iff t _ ts).mpr ⟨u', v, rfl, hv⟩)

theorem matchStr_nonsep_iff (t : RTail) (s : List Char) (ts : List RTok) :
    matchStr s t (RTok.nonsep :: ts) = true ↔
      ∃ c v, s = c :: v ∧ c ≠ '/' ∧ matchStr v t ts = true := by
  cases s with
  | nil =>
    constructor
    · intro h
      simp [matchStr, matchNil] at h
    · rintro ⟨c, v, huv, -⟩
      exact absurd huv (by simp)
  | cons c s =>
    have key : matchStr (c :: s) t (RTok.nonsep :: ts) =
        ((c != '/') && matchStr s t ts) := rfl
    rw [key]
    simp only [Bool.and_eq_true, bne_iff_ne, ne_eq]
    constructor
    · rintro ⟨hc, h⟩
      exact ⟨c, s, rfl, hc, h⟩
    · rintro ⟨c', v, huv, hc, h⟩
      injection huv with h1 h2
      subst h1; subst h2
      exact ⟨hc, h⟩

theorem matchStr_dotStar_eos : ∀ s : List Char, matchStr s RTail.eos [RTok.dotStar] = true := by
  intro s
  induction s with
  | nil => rfl
  | cons c s ih =>
    have key : matchStr (c :: s) RTail.eos [RTok.dotStar] =
        (tailOk RTail.eos (c :: s) || matchStr s RTail.eos [RTok.dotStar]) := rfl
    rw [key, ih]
    simp

theorem searchSep_iff (t : RTail) (body : List RTok) :
    ∀ s : List Char, searchSep t body s = true ↔
      ∃ u v, s = u ++ '/' :: v ∧ matchStr v t body = true := by
  intro s
  induction s with
  | nil =>
    constructor
    · intro h
      simp [searchSep] at h
    · rintro ⟨u, v, huv, -⟩
      exact absurd huv.symm (by simp)
  | cons c s ih =>
    have key : searchSep t body (c :: s) =
        (((c == '/') && matchStr s t body) || searchSep t body s) := rfl
    rw [key]
    simp only [Bool.or_eq_true, Bool.and_eq_true, beq_iff_eq]
    constructor
    · rintro (⟨rfl, h⟩ | h)
      · exact ⟨[], s, rfl, h⟩
      · obtain ⟨u, v, rfl, hv⟩ := ih.mp h
        exact ⟨c :: u, v, rfl, hv⟩
    · rintro ⟨u, v, huv, hv⟩
      cases u with
      | nil =>
        rw [List.nil_append] at huv
        injection huv with h1 h2
        subst h1; subst h2
        exact Or.inl ⟨rfl, hv⟩
      | cons c' u' =>
        rw [List.cons_append] at huv
        injection huv with h1 h2
        subst h1; subst h2
        exact Or.inr (ih.mpr ⟨u', v, rfl, hv⟩)

theorem getLast?_cons_of_ne_nil {α : Type} {c : α} {s : List α} (h : s ≠ []) :
    (c :: s).getLast? = s.getLast? := by
  cases s with
  | nil => exact absurd rfl h
  | cons a l => exact List.getLast?_cons_cons

theorem matchStr_sepEos_getLast :
    ∀ (s : List Char) (toks : List RTok),
      matchStr s RTail.sepEos toks = true → s.getLast? = some '/' := by
  intro s
  induction s with
  | nil =>
    intro toks h
    rw [matchStr_nil_sepEos] at h
    exact absurd h (by simp)
  | cons c s ih =>
    intro toks
    induction toks with
    | nil =>
      intro h
      have : ((c :: s : List Char) == ['/']) = true := h
      have heq : (c :: s : List Char) = ['/'] := by
        exact eq_of_beq this
      rw [heq]
      rfl
    | cons tok ts ihts =>
      intro h
      cases tok with
      | lit d =>
        have key : matchStr (c :: s) RTail.sepEos (RTok.lit d :: ts) =
            ((c == d) && matchStr s RTail.sepEos ts) := rfl
        rw [key] at h
        obtain ⟨-, h2⟩ := Bool.and_eq_true_iff.mp h
        have hs := ih ts h2
        rw [getLast?_cons_of_ne_nil (by intro hnil; rw [hnil] at hs; simp at hs)]
        exact hs
      | nonsep =>
        have key : matchStr (c :: s) RTail.sepEos (RTok.nonsep :: ts) =
            ((c != '/') && matchStr s RTail.sepEos ts) := rfl
        rw [key] at h
        obtain ⟨-, h2⟩ := Bool.and_eq_true_iff.mp h
        have hs := ih ts h2
        rw [getLast?_cons_of_ne_nil (by intro hnil; rw [hnil] at hs; simp at hs)]
        exact hs
      | sep =>
        have key : matchStr (c :: s) RTail.sepEos (RTok.sep :: ts) =
            ((c == '/') && matchStr s RTail.sepEos ts) := rfl
        rw [key] at h
        obtain ⟨-, h2⟩ := Bool.and_eq_true_iff.mp h
        have hs := ih ts h2
        rw [getLast?_cons_of_ne_nil (by intro hnil; rw [hnil] at hs; simp at hs)]
        exact hs
      | cls stuff =>
        have key : matchStr (c :: s) RTail.sepEos (RTok.cls stuff :: ts) =
            (classMatch stuff c && matchStr s RTail.sepEos ts) := rfl
        rw [key] at h
        obtain ⟨-, h2⟩ := Bool.and_eq_true_iff.mp h
        have hs := ih ts h2
        rw [getLast?_cons_of_ne_nil (by intro hnil; rw [hnil] at hs; simp at hs)]
        exact hs
      | nonsepStar =>
        have key : matchStr (c :: s) RTail.sepEos (RTok.nonsepStar :: ts) =
            (matchStr (c :: s) RTail.sepEos ts
              || ((c != '/') && matchStr s RTail.sepEos (RTok.nonsepStar :: ts))) := rfl
        rw [key] at h
        rcases Bool.or_eq_true_iff.mp h with h1 | h1
        · exact ihts h1
        · obtain ⟨-, h2⟩ := Bool.and_eq_true_iff.mp h1
          have hs := ih _ h2
          rw [getLast?_cons_of_ne_nil (by intro hnil; rw [hnil] at hs; simp at hs)]
          exact hs
      | dotStar =>
        have key : matchStr (c :: s) RTail.sepEos (RTok.dotStar :: ts) =
            (matchStr (c :: s) RTail.sepEos ts
              || matchStr s RTail.sepEos (RTok.dotStar :: ts)) := rfl
        rw [key] at h
        rcases Bool.or_eq_true_iff.mp h with h1 | h1
        · exact ihts h1
        · have hs := ih _ h1
          rw [getLast?_cons_of_ne_nil (by intro hnil; rw [hnil] at hs; simp at hs)]
          exact hs
      | anySegs =>
        have key : matchStr (c :: s) RTail.sepEos (RTok.anySegs :: ts) =
            (matchStr (c :: s) RTail.sepEos ts
              || ((c == '/') && matchStr s RTail.sepEos ts)
              || matchStr s RTail.sepEos (RTok.seg :: ts)) := rfl
        rw [key] at h
        rcases Bool.or_eq_true_iff.mp h with h1 | h1
        · rcases Bool.or_eq_true_iff.mp h1 with h2 | h2
          · exact ihts h2
          · obtain ⟨-, h3⟩ := Bool.and_eq_true_iff.mp h2
            have hs := ih _ h3
            rw [getLast?_cons_of_ne_nil (by intro hnil; rw [hnil] at hs; simp at hs)]
            exact hs
        · have hs := ih _ h1
          rw [getLast?_cons_of_ne_nil (by intro hnil; rw [hnil] at hs; simp at hs)]
          exact hs
      | seg =>
        have key : matchStr (c :: s) RTail.sepEos (RTok.seg :: ts) =
            (((c == '/') && matchStr s RTail.sepEos ts)
              || matchStr s RTail.sepEos (RTok.seg :: ts)) := rfl
        rw [key] at h
        rcases Bool.or_eq_true_iff.mp h with h1 | h1
        · obtain ⟨-, h2⟩ := Bool.and_eq_true_iff.mp h1
          have hs := ih _ h2
          rw [getLast?_cons_of_ne_nil (by intro hnil; rw [hnil] at hs; simp at hs)]
          exact hs
        · have hs := ih _ h1
          rw [getLast?_cons_of_ne_nil (by intro hnil; rw [hnil] at hs; simp at hs)]
          exact hs

theorem reSearch_sepEos_getLast (g : GRegex) (s : List Char)
    (ht : g.tail = RTail.sepEos) (h : reSearch g s = true) :
    s.getLast? = some '/' := by
  unfold reSearch at h
  rw [ht] at h
  by_cases ha : g.anchored = true
  · rw [if_pos ha] at h
    exact matchStr_sepEos_getLast s g.body h
  · rw [if_neg ha] at h
    rcases Bool.or_eq_true_iff.mp h with h1 | h1
    · exact matchStr_sepEos_getLast s g.body h1
    · obtain ⟨u, v, rfl, hv⟩ := (searchSep_iff RTail.sepEos g.body _).mp h1
      have hs := matchStr_sepEos_getLast v g.body hv
      have hvne : v ≠ [] := by intro hnil; rw [hnil] at hs; simp at hs
      rw [List.getLast?_append]
      rw [getLast?_cons_of_ne_nil hvne, hs]
      rfl

theorem anyMatch_eq (cwd : List String) (q : PathOrStr) :
    ∀ rules : List Rule, (∀ r ∈ rules, excIsOk (r.matches cwd q) = true) →
      anyMatch cwd q rules = .ok (rules.any (matchOk cwd q)) := by
  intro rules
  induction rules with
  | nil => intro _; rfl
  | cons r rs ih =>
    intro hok
    have hr := hok r (by simp)
    cases hm : r.matches cwd q with
    | error e => rw [hm] at hr; simp [excIsOk] at hr
    | ok b =>
      have hstep : anyMatch cwd q (r :: rs) =
          (r.matches cwd q >>= fun b => if b then pure true else anyMatch cwd q rs) := rfl
      rw [hstep, hm, exc_bind_ok]
      have hmOk : matchOk cwd q r = b := by simp [matchOk, hm]
      cases b with
      | true => simp [List.any_cons, hmOk, exc_pure]
      | false =>
        have := ih (fun r' hr' => hok r' (List.mem_cons_of_mem _ hr'))
        simp only [if_neg (by simp : ¬(false = true))]
        rw [this]
        simp [List.any_cons, hmOk]

theorem handleNegAux_eq (cwd : List String) (q : PathOrStr) :
    ∀ l : List Rule, (∀ r ∈ l, excIsOk (r.matches cwd q) = true) →
      handleNegAux cwd q l =
        .ok (match l.find? (matchOk cwd q) with
             | some r => !r.negation
             | none => false) := by
  intro l
  induction l with
  | nil => intro _; rfl
  | cons r rs ih =>
    intro hok
    have hr := hok r (by simp)
    cases hm : r.matches cwd q with
    | error e => rw [hm] at hr; simp [excIsOk] at hr
    | ok b =>
      have hstep : handleNegAux cwd q (r :: rs) =
          (r.matches cwd q >>= fun b =>
            if b then pure (!r.negation) else handleNegAux cwd q rs) := rfl
      rw [hstep, hm, exc_bind_ok]
      have hmOk : matchOk cwd q r = b := by simp [matchOk, hm]
      cases b with
      | true =>
        rw [List.find?_cons_of_pos _ (by rw [hmOk])]
        simp [exc_pure]
      | false =>
        rw [List.find?_cons_of_neg _ (by rw [hmOk]; simp)]
        simp only [if_neg (by simp : ¬(false = true))]
        exact ih (fun r' hr' => hok r' (List.mem_cons_of_mem _ hr'))

/-- Claim C1: when at least one compiled rule negates, the predicate returned
by `parse_gitignore` scans the rules in reverse file order and the first rule
(from the end) whose match succeeds decides — ignored for a non-negating
rule, not ignored for a negating one, not ignored when nothing matches; when
no rule negates, the predicate is the logical OR of all rules' matches,
which depends only on which rules are in the list, not on their order. -/
theorem c1_predicate_evaluation (cwd : List String) (rules : List Rule)
    (q : PathOrStr)
    (hok : ∀ r ∈ rules, excIsOk (r.matches cwd q) = true) :
    (rules.any (fun r => r.negation) = true →
      ignore_predicate cwd rules q =
        .ok (match rules.reverse.find? (matchOk cwd q) with
             | some r => !r.negation
             | none => false))
    ∧ (rules.any (fun r => r.negation) = false →
      ignore_predicate cwd rules q = .ok (rules.any (matchOk cwd q))
        ∧ (rules.any (matchOk cwd q) = true ↔
            ∃ r ∈ rules, matchOk cwd q r = true)) := by
  constructor
  · intro hneg
    unfold ignore_predicate
    simp only [hneg, Bool.not_true, Bool.false_eq_true, if_false]
    exact handleNegAux_eq cwd q rules.reverse
      (fun r hr => hok r (List.mem_reverse.mp hr))
  · intro hneg
    constructor
    · unfold ignore_predicate
      simp only [hneg, Bool.not_false, if_true]
      exact anyMatch_eq cwd q rules hok
    · exact List.any_eq_true

/-- Witness for C1 at a concrete rule list (`*.log` then `!keep.log`) and the
query `/keep.log`. -/
theorem c1_predicate_evaluation_witness :
    ignore_predicate [] demoRules demoQ =
      .ok (match demoRules.reverse.find? (matchOk [] demoQ) with
           | some r => !r.negation
           | none => false) :=
  (c1_predicate_evaluation [] demoRules demoQ (by decide)).1 (by decide)

/-- Claim C2 (refuted by the code): the claim says `rule_from_pattern`
returns `Some`/`None` for every line and never raises; in fact every pattern
whose residual becomes empty at one of the indexing steps raises
`IndexError`: `!` alone (at `pattern[-1]`), `**` alone and `**/` (after the
leading `**` strip), and a pattern whose character class holds only `/` (at
`stuff[0]` in the translation). -/
theorem c2_crash_on_empty_residual :
    rule_from_pattern [] ['!'] none none = .error PyErr.indexError
    ∧ rule_from_pattern [] "**".data none none = .error PyErr.indexError
    ∧ rule_from_pattern [] "**/".data none none = .error PyErr.indexError
    ∧ rule_from_pattern [] "a[/]b".data none none = .error PyErr.indexError := by
  refine ⟨rfl, rfl, rfl, rfl⟩

/-- Claim C5: a single `*` (`[^/]*`) never matches across a separator, `?`
(`[^/]`) matches exactly one non-separator character, `**/` (`(.*[/])?`)
matches zero or more complete path segments, a trailing bare `**` (`.*$`)
matches everything, and concretely the compiled rule for pattern
a/double-star/b matches `a/b`, `a/x/b` and `a/x/y/b`. -/
theorem c5_star_semantics :
    (∀ (t : RTail) (s : List Char) (ts : List RTok),
      matchStr s t (RTok.nonsepStar :: ts) = true ↔
        ∃ u v, s = u ++ v ∧ (∀ c ∈ u, c ≠ '/') ∧ matchStr v t ts = true)
    ∧ (∀ (t : RTail) (s : List Char) (ts : List RTok),
      matchStr s t (RTok.nonsep :: ts) = true ↔
        ∃ c v, s = c :: v ∧ c ≠ '/' ∧ matchStr v t ts = true)
    ∧ (∀ (t : RTail) (s : List Char) (ts : List RTok),
      matchStr s t (RTok.anySegs :: ts) = true ↔
        (matchStr s t ts = true ∨
          ∃ u v, s = u ++ '/' :: v ∧ matchStr v t ts = true))
    ∧ (∀ s : List Char, matchStr s RTail.eos [RTok.dotStar] = true)
    ∧ tryMatch "a/**/b" (absQuery ["a", "b"]) = some true
    ∧ tryMatch "a/**/b" (absQuery ["a", "x", "b"]) = some true
    ∧ tryMatch "a/**/b" (absQuery ["a", "x", "y", "b"]) = some true
    ∧ tryMatch "a/**" (absQuery ["a", "x", "y"]) = some true :=
  ⟨matchStr_nonsepStar_iff, matchStr_nonsep_iff, matchStr_anySegs_iff,
    matchStr_dotStar_eos, rfl, rfl, rfl, rfl⟩

/-- Witness for C5: the trailing `.*$` conjunct applied at a concrete
string. -/
theorem c5_star_semantics_witness :
    matchStr "xy".data RTail.eos [RTok.dotStar] = true :=
  c5_star_semantics.2.2.2.1 "xy".data

theorem fnmatch_ok_fields {pat : List Char} {d n a : Bool} {g : GRegex}
    (h : fnmatch_pathname_to_regex pat d n a = .ok g) :
    g.anchored = a ∧ g.tail = tailFor d n := by
  unfold fnmatch_pathname_to_regex at h
  cases hb : fnBody pat with
  | error e =>
    rw [hb, exc_bind_error] at h
    exact absurd h (by simp)
  | ok b =>
    rw [hb, exc_bind_ok] at h
    rw [exc_pure] at h
    injection h with h1
    rw [← h1]
    exact ⟨rfl, rfl⟩

theorem rule_from_pattern_ok {cwd : List String} {p : List Char}
    {bp : Option PyPath} {src : Option (List Char × Nat)} {x : Option Rule}
    (h : rule_from_pattern cwd p bp src = .ok x) :
    rule_body p bp src cwd = .ok x := by
  cases bp with
  | none =>
    simp only [rule_from_pattern] at h
    exact h
  | some b =>
    simp only [rule_from_pattern] at h
    by_cases hb : b ≠ PyPath.resolve cwd b
    · rw [if_pos hb] at h
      exact absurd h (by simp)
    · rw [if_neg hb] at h
      exact h

theorem rule_body_fields {p : List Char} {bp : Option PyPath}
    {src : Option (List Char × Nat)} {cwd : List String} {r : Rule}
    (h : rule_body p bp src cwd = .ok (some r)) :
    r.pattern = p ∧
    r.negation = (p.head? == some '!') ∧
    r.directory_only = ((collapsed p).getLast? == some '/') ∧
    r.anchored = codeAnchored p ∧
    r.regex.anchored = r.anchored ∧
    r.regex.tail = tailFor r.directory_only r.negation ∧
    r.base_path = bp.map (_normalize_path cwd) := by
  simp only [rule_body] at h
  rw [show sub2 (sub1 (if p.head? == some '!' then p.tail else p)) = collapsed p
    from rfl] at h
  rw [show (if (collapsed p).head? == some '/' then (collapsed p).tail
      else collapsed p) = stripLeadSlash (collapsed p) from rfl] at h
  split at h
  · exact absurd h (by simp)
  split at h
  · exact absurd h (by simp)
  split at h
  · exact absurd h (by simp)
  rename_i lastC hlast
  split at h
  · exact absurd h (by simp)
  rename_i c0 rest0 hsls
  by_cases hss : (c0 == '*' && rest0.head? == some '*') = true
  · rw [if_pos hss] at h
    dsimp only at h
    split at h
    · exact absurd h (by simp)
    rename_i c1 rest1 htl
    split at h
    · exact absurd h (by simp)
    rename_i c2 hlast2
    split at h
    · exact absurd h (by simp)
    rename_i c3 rest3 hpat3
    split at h
    · exact absurd h (by simp)
    rename_i pat4 hunesc
    split at h
    · exact absurd h (by simp)
    rename_i regex hfn
    simp only [Except.ok.injEq, Option.some.injEq] at h
    subst h
    refine ⟨rfl, rfl, ?_, ?_, ?_, ?_, rfl⟩
    · rw [hlast]; rfl
    · simp [codeAnchored, hsls, startsStarStar, hss]
    · exact (fnmatch_ok_fields hfn).1
    · exact (fnmatch_ok_fields hfn).2
  · rw [if_neg hss] at h
    dsimp only at h
    split at h
    · exact absurd h (by simp)
    rename_i c2 hlast2
    split at h
    · exact absurd h (by simp)
    rename_i c3 rest3 hpat3
    split at h
    · exact absurd h (by simp)
    rename_i pat4 hunesc
    split at h
    · exact absurd h (by simp)
    rename_i regex hfn
    simp only [Except.ok.injEq, Option.some.injEq] at h
    subst h
    refine ⟨rfl, rfl, ?_, ?_, ?_, ?_, rfl⟩
    · rw [hlast]; rfl
    · simp only [codeAnchored, hsls, startsStarStar]
      rw [show ((c0 :: rest0 : List Char).head? == some '*'
          && (c0 :: rest0 : List Char).tail.head? == some '*')
        = (c0 == '*' && rest0.head? == some '*') from rfl]
      rw [if_neg (by rw [eq_false_of_ne_true hss]; simp)]
    · exact (fnmatch_ok_fields hfn).1
    · exact (fnmatch_ok_fields hfn).2

/-- Counterexample to claim C4 as stated: for the pattern `/**/a`, the claim
(whose `**` exception looks at the collapsed pattern itself) predicts
`anchored = true` (a non-trailing `/` is present and the pattern does not
begin with `**`), but the compiled rule has `anchored = false`, because the
code tests for the leading `**` only after stripping the single leading
`/`. -/
theorem c4_anchored_counterexample :
    claimAnchoredC4 "/**/a".data = true
    ∧ rule_from_pattern [] "/**/a".data none none = .ok (some (ruleOfNB "/**/a"))
    ∧ (ruleOfNB "/**/a").anchored = false :=
  ⟨rfl, rfl, rfl⟩

/-- Claim C4 as amended: `anchored = true` iff a `/` occurs in the collapsed
pattern anywhere except as the sole trailing character, except that a
pattern beginning with `**` after also stripping a single leading `/` has
`anchored` forced to `false` (`codeAnchored`). -/
theorem c4_anchored_amended (cwd : List String) (p : List Char)
    (bp : Option PyPath) (src : Option (List Char × Nat)) (r : Rule)
    (h : rule_from_pattern cwd p bp src = .ok (some r)) :
    r.anchored = codeAnchored p :=
  (rule_body_fields (rule_from_pattern_ok h)).2.2.2.1

/-- Witness for the amended C4 at the concrete pattern `/**/a`. -/
theorem c4_anchored_amended_witness :
    (ruleOfNB "/**/a").anchored = codeAnchored "/**/a".data :=
  c4_anchored_amended [] "/**/a".data none none (ruleOfNB "/**/a") rfl

theorem mkStuff_error {inside : List Char} {e : PyErr}
    (h : mkStuff inside = .error e) : e = PyErr.indexError := by
  simp only [mkStuff] at h
  split at h
  · injection h with h1
    exact h1.symm
  all_goals exact absurd h (by simp)

theorem exc_cons_error {m : Exc (List RTok)} {tok : RTok} {e : PyErr}
    (hm : ∀ e', m = .error e' → e' = PyErr.indexError)
    (h : (m >>= fun l => (pure (tok :: l) : Exc (List RTok))) = .error e) :
    e = PyErr.indexError := by
  cases hmv : m with
  | ok l =>
    rw [hmv, exc_bind_ok, exc_pure] at h
    exact absurd h (by simp)
  | error e' =>
    rw [hmv, exc_bind_error] at h
    injection h with h1
    exact h1 ▸ hm e' hmv

theorem fnBodyF_error :
    ∀ (f : Nat) (p : List Char) (e : PyErr),
      fnBodyF f p = .error e → e = PyErr.indexError := by
  intro f
  induction f with
  | zero =>
    intro p e h
    cases p <;> simp [fnBodyF] at h
  | succ f ih =>
    intro p e h
    rw [fnBodyF.eq_def] at h
    split at h
    · exact absurd h (by simp)
    · exact absurd h (by simp)
    · rename_i heq
      obtain rfl := Nat.succ.inj heq
      split at h
      · split at h
        · exact exc_cons_error (fun e' he' => ih _ e' he') h
        · exact exc_cons_error (fun e' he' => ih _ e' he') h
      · exact exc_cons_error (fun e' he' => ih _ e' he') h
    · rename_i heq
      obtain rfl := Nat.succ.inj heq
      exact exc_cons_error (fun e' he' => ih _ e' he') h
    · rename_i heq
      obtain rfl := Nat.succ.inj heq
      exact exc_cons_error (fun e' he' => ih _ e' he') h
    · rename_i heq
      obtain rfl := Nat.succ.inj heq
      split at h
      · exact exc_cons_error (fun e' he' => ih _ e' he') h
      · rename_i inside after hspan
        cases hst : mkStuff inside with
        | error e' =>
          rw [hst, exc_bind_error] at h
          injection h with h1
          exact h1 ▸ mkStuff_error hst
        | ok stuff =>
          rw [hst, exc_bind_ok] at h
          exact exc_cons_error (fun e' he' => ih _ e' he') h
    · rename_i heq
      obtain rfl := Nat.succ.inj heq
      exact exc_cons_error (fun e' he' => ih _ e' he') h

theorem fnmatch_error {pat : List Char} {d n a : Bool} {e : PyErr}
    (h : fnmatch_pathname_to_regex pat d n a = .error e) :
    e = PyErr.indexError := by
  unfold fnmatch_pathname_to_regex at h
  cases hb : fnBody pat with
  | error e' =>
    rw [hb, exc_bind_error] at h
    injection h with h1
    exact h1 ▸ fnBodyF_error _ _ _ hb
  | ok b =>
    rw [hb, exc_bind_ok, exc_pure] at h
    exact absurd h (by simp)

theorem rule_body_error {p : List Char} {bp : Option PyPath}
    {src : Option (List Char × Nat)} {cwd : List String} {e : PyErr}
    (h : rule_body p bp src cwd = .error e) : e = PyErr.indexError := by
  simp only [rule_body] at h
  rw [show sub2 (sub1 (if p.head? == some '!' then p.tail else p)) = collapsed p
    from rfl] at h
  rw [show (if (collapsed p).head? == some '/' then (collapsed p).tail
      else collapsed p) = stripLeadSlash (collapsed p) from rfl] at h
  split at h
  · exact absurd h (by simp)
  split at h
  · exact absurd h (by simp)
  split at h
  · injection h with h1
    exact h1.symm
  rename_i lastC hlast
  split at h
  · injection h with h1
    exact h1.symm
  rename_i c0 rest0 hsls
  by_cases hss : (c0 == '*' && rest0.head? == some '*') = true
  · rw [if_pos hss] at h
    dsimp only at h
    split at h
    · injection h with h1
      exact h1.symm
    rename_i c1 rest1 htl
    split at h
    · injection h with h1
      exact h1.symm
    rename_i c2 hlast2
    split at h
    · injection h with h1
      exact h1.symm
    rename_i c3 rest3 hpat3
    split at h
    · rename_i e' hunesc
      injection h with h1
      rw [← h1]
      split at hunesc
      · split at hunesc
        · injection hunesc with h2
          exact h2.symm
        · exact absurd hunesc (by simp)
      · exact absurd hunesc (by simp)
    rename_i pat4 hunesc
    split at h
    · rename_i e' hfn
      injection h with h1
      rw [← h1]
      exact fnmatch_error hfn
    · exact absurd h (by simp)
  · rw [if_neg hss] at h
    dsimp only at h
    split at h
    · injection h with h1
      exact h1.symm
    rename_i c2 hlast2
    split at h
    · injection h with h1
      exact h1.symm
    rename_i c3 rest3 hpat3
    split at h
    · rename_i e' hunesc
      injection h with h1
      rw [← h1]
      split at hunesc
      · split at hunesc
        · injection hunesc with h2
          exact h2.symm
        · exact absurd hunesc (by simp)
      · exact absurd hunesc (by simp)
    rename_i pat4 hunesc
    split at h
    · rename_i e' hfn
      injection h with h1
      rw [← h1]
      exact fnmatch_error hfn
    · exact absurd h (by simp)

/-- Claim C9: a non-absolute `base_path` makes `rule_from_pattern` fail fast
with `ValueError` at construction time (for every line, hence in particular
for every non-comment, non-blank line), while `base_path = None` never
triggers the contract error (any error raised with `None` is an
`IndexError`, never the contract `ValueError`). -/
theorem c9_base_path_contract (cwd : List String) :
    (∀ (p : List Char) (bp : PyPath) (src : Option (List Char × Nat)),
      bp.absolute = false →
      rule_from_pattern cwd p (some bp) src = .error PyErr.valueError)
    ∧ (∀ (p : List Char) (src : Option (List Char × Nat)),
      rule_from_pattern cwd p none src ≠ .error PyErr.valueError) := by
  constructor
  · intro p bp src habs
    have hne : bp ≠ PyPath.resolve cwd bp := by
      intro heq
      have h2 := congrArg PyPath.absolute heq
      rw [habs] at h2
      simp [PyPath.resolve] at h2
    simp only [rule_from_pattern]
    rw [if_pos hne]
  · intro p src h
    simp only [rule_from_pattern] at h
    exact PyErr.noConfusion (rule_body_error h)

/-- Witness for C9: the relative base path is rejected with `ValueError`. -/
theorem c9_base_path_contract_witness :
    rule_from_pattern [] ['a'] (some ⟨false, []⟩) none = .error PyErr.valueError :=
  (c9_base_path_contract []).1 ['a'] ⟨false, []⟩ none rfl

/-- Claim C10: when the normalized query path does not lie inside a rule's
`base_path`, `Rule.match` raises `ValueError` (from `relative_to`) instead
of returning `False`, and therefore the predicate returned by
`parse_gitignore` raises as well for any non-empty rule list whose rules all
carry that base path. -/
theorem c10_outside_base_raises (cwd : List String) (bp : List String)
    (q : PathOrStr)
    (hout : bp.isPrefixOf (_normalize_path cwd (rawOf q)) = false) :
    (∀ r : Rule, r.base_path = some bp →
      r.matches cwd q = .error PyErr.valueError)
    ∧ (∀ rules : List Rule, rules ≠ [] →
      (∀ r ∈ rules, r.base_path = some bp) →
      ignore_predicate cwd rules q = .error PyErr.valueError) := by
  have hrel : relative_to (_normalize_path cwd (rawOf q)) bp
      = .error PyErr.valueError := by
    unfold relative_to
    simp [hout]
  have hmatch : ∀ r : Rule, r.base_path = some bp →
      r.matches cwd q = .error PyErr.valueError := by
    intro r hbp
    simp only [Rule.matches, hbp, hrel]
  refine ⟨hmatch, ?_⟩
  intro rules hne hall
  unfold ignore_predicate
  by_cases hneg : rules.any (fun r => r.negation) = true
  · simp only [hneg, Bool.not_true, Bool.false_eq_true, if_false]
    cases hrev : rules.reverse with
    | nil => exact absurd (List.reverse_eq_nil_iff.mp hrev) hne
    | cons r' rest' =>
      have hr' : r' ∈ rules := by
        rw [← List.mem_reverse, hrev]
        simp
      have hstep : handleNegAux cwd q (r' :: rest') =
          (r'.matches cwd q >>= fun b =>
            if b then pure (!r'.negation) else handleNegAux cwd q rest') := rfl
      rw [hstep, hmatch r' (hall r' hr'), exc_bind_error]
  · simp only [Bool.not_eq_true] at hneg
    simp only [hneg, Bool.not_false, if_true]
    cases rules with
    | nil => exact absurd rfl hne
    | cons r rs =>
      have hstep : anyMatch cwd q (r :: rs) =
          (r.matches cwd q >>= fun b =>
            if b then pure true else anyMatch cwd q rs) := rfl
      rw [hstep, hmatch r (hall r (by simp)), exc_bind_error]

/-- Witness for C10 at a concrete rule and query outside its base path. -/
theorem c10_outside_base_raises_witness :
    demoOutRule.matches [] (absQuery ["other"]) = .error PyErr.valueError :=
  (c10_outside_base_raises [] ["base"] (absQuery ["other"]) (by decide)).1
    demoOutRule rfl

theorem joinSegs_ne_nil {segs : List String} (hne : segs ≠ [])
    (hgood : ∀ x ∈ segs, x.data ≠ []) : joinSegs segs ≠ [] := by
  cases segs with
  | nil => exact absurd rfl hne
  | cons s rest =>
    cases rest with
    | nil => exact hgood s (by simp)
    | cons s2 r2 => simp [joinSegs]

theorem joinSegs_getLast_ne_slash :
    ∀ segs : List String, (∀ x ∈ segs, x.data ≠ [] ∧ '/' ∉ x.data) →
      segs ≠ [] → ∀ c : Char, (joinSegs segs).getLast? = some c → c ≠ '/' := by
  intro segs
  induction segs with
  | nil =>
    intro _ h
    exact absurd rfl h
  | cons s rest ih =>
    intro hgood _ c hc
    cases rest with
    | nil =>
      simp only [joinSegs] at hc
      have hmem : c ∈ s.data := List.mem_of_getLast?_eq_some hc
      intro hcs
      exact (hgood s (by simp)).2 (hcs ▸ hmem)
    | cons s2 r2 =>
      have hne2 : joinSegs (s2 :: r2) ≠ [] :=
        joinSegs_ne_nil (by simp)
          (fun x hx => (hgood x (List.mem_cons_of_mem _ hx)).1)
      simp only [joinSegs, List.getLast?_append] at hc
      rw [getLast?_cons_of_ne_nil hne2] at hc
      cases hJ : (joinSegs (s2 :: r2)).getLast? with
      | none => exact absurd (List.getLast?_eq_none_iff.mp hJ) hne2
      | some c' =>
        rw [hJ, Option.or_some] at hc
        injection hc with h1
        subst h1
        exact ih (fun x hx => hgood x (List.mem_cons_of_mem _ hx)) (by simp) c' hJ

theorem strOfRel_getLast_ne_slash {segs : List String}
    (hgood : ∀ x ∈ segs, x.data ≠ [] ∧ '/' ∉ x.data) :
    ∀ c : Char, (strOfRel segs).getLast? = some c → c ≠ '/' := by
  intro c hc
  cases segs with
  | nil =>
    simp [strOfRel] at hc
    subst hc
    decide
  | cons s rest =>
    simp only [strOfRel, List.isEmpty_cons, if_neg] at hc
    exact joinSegs_getLast_ne_slash (s :: rest) hgood (by simp) c
      (by simpa using hc)

theorem ruleSearch_no_hint {r : Rule} {q : PathOrStr} {rel : List Char}
    (hhint : isStrWithSlash q = false) :
    ruleSearch r q rel =
      reSearch r.regex (if rel.take 2 = ['.', '/'] then rel.drop 2 else rel) := by
  simp [ruleSearch, hhint]

/-- Claim C7: a directory-only negation rule compiles to the `/$` suffix; a
rule with that suffix and a base path can only match when the relative
string ends in a separator, which (for well-formed path segments) happens
only when the caller's `str` query carries the trailing-slash hint — shown
general in the second conjunct and concretely for `!build/` in the last
three. -/
theorem c7_dir_negation :
    (∀ (cwd : List String) (p : List Char) (bp : Option PyPath)
        (src : Option (List Char × Nat)) (r : Rule),
      rule_from_pattern cwd p bp src = .ok (some r) →
      r.directory_only = true → r.negation = true →
      r.regex.tail = RTail.sepEos)
    ∧ (∀ (cwd : List String) (r : Rule) (q : PathOrStr) (bp : List String)
        (b : Bool),
      r.regex.tail = RTail.sepEos →
      r.base_path = some bp →
      (∀ x ∈ _normalize_path cwd (rawOf q), x.data ≠ [] ∧ '/' ∉ x.data) →
      isStrWithSlash q = false →
      r.matches cwd q = .ok b → b = false)
    ∧ tryMatch "!build/" (PathOrStr.str ⟨true, ["build"]⟩ true) = some true
    ∧ tryMatch "!build/" (PathOrStr.str ⟨true, ["build"]⟩ false) = some false
    ∧ tryMatch "!build/" (absQuery ["build"]) = some false := by
  refine ⟨?_, ?_, rfl, rfl, rfl⟩
  · intro cwd p bp src r h hd hn
    have hf := (rule_body_fields (rule_from_pattern_ok h)).2.2.2.2.2.1
    rw [hf, hd, hn]
    rfl
  · intro cwd r q bp b ht hbp hgood hhint hm
    simp only [Rule.matches, hbp] at hm
    cases hrelv : relative_to (_normalize_path cwd (rawOf q)) bp with
    | error e =>
      rw [hrelv] at hm
      exact absurd hm (by simp)
    | ok relSegs =>
      rw [hrelv] at hm
      dsimp only at hm
      injection hm with hb
      cases b with
      | false => rfl
      | true =>
        exfalso
        rw [ruleSearch_no_hint hhint] at hb
        have hsub : ∀ x ∈ relSegs, x ∈ _normalize_path cwd (rawOf q) := by
          intro x hx
          unfold relative_to at hrelv
          split at hrelv
          · injection hrelv with h2
            rw [← h2] at hx
            exact List.drop_subset _ _ hx
          · exact absurd hrelv (by simp)
        have hgood2 : ∀ x ∈ relSegs, x.data ≠ [] ∧ '/' ∉ x.data :=
          fun x hx => hgood x (hsub x hx)
        by_cases hstrip : (strOfRel relSegs).take 2 = ['.', '/']
        · rw [if_pos hstrip] at hb
          have hlast := reSearch_sepEos_getLast r.regex _ ht hb
          have hfull : (strOfRel relSegs).getLast? = some '/' := by
            conv_lhs => rw [← List.take_append_drop 2 (strOfRel relSegs)]
            rw [List.getLast?_append, hlast, Option.or_some]
          exact (strOfRel_getLast_ne_slash hgood2 '/' hfull) rfl
        · rw [if_neg hstrip] at hb
          have hlast := reSearch_sepEos_getLast r.regex _ ht hb
          exact (strOfRel_getLast_ne_slash hgood2 '/' hlast) rfl

/-- Witness for C7: the `!build/` rule with the plain `Path` query for
`/build` (no trailing-separator hint) does not match. -/
theorem c7_dir_negation_witness :
    (ruleOf "!build/").regex.tail = RTail.sepEos
    ∧ (∀ x ∈ _normalize_path [] (rawOf (absQuery ["build"])),
        x.data ≠ [] ∧ '/' ∉ x.data)
    ∧ (ruleOf "!build/").matches [] (absQuery ["build"]) = .ok false
    ∧ false = false :=
  ⟨rfl, by decide, rfl,
    c7_dir_negation.2.1 [] (ruleOf "!build/") (absQuery ["build"]) [] false
      rfl rfl (by decide) rfl rfl⟩

/-- Counterexample to claim C6 as stated: the non-negated directory-only
rule compiled from `build/` DOES match the plain-file query `/build`
(no trailing separator), because its suffix accepts at end-of-string. -/
theorem c6_dir_only_counterexample :
    tryMatch "build/" (absQuery ["build"]) = some true := rfl

/-- Claim C6 as amended: a non-negated directory-only rule compiles to the
suffix that accepts at end-of-string or before a separator, so it matches a
plain file of the same name (the matcher cannot distinguish a file from a
directory without a trailing separator); only directory-only negation rules
require the separator. -/
theorem c6_dir_only_amended :
    (∀ (cwd : List String) (p : List Char) (bp : Option PyPath)
        (src : Option (List Char × Nat)) (r : Rule),
      rule_from_pattern cwd p bp src = .ok (some r) →
      r.directory_only = true → r.negation = false →
      r.regex.tail = RTail.eosOrSep)
    ∧ (∀ s : List Char, tailOk RTail.eosOrSep s = true ↔
        (s = [] ∨ s.head? = some '/'))
    ∧ tryMatch "build/" (absQuery ["build"]) = some true
    ∧ tryMatch "build/" (absQuery ["build", "x.txt"]) = some true := by
  refine ⟨?_, ?_, rfl, rfl⟩
  · intro cwd p bp src r h hd hn
    have hf := (rule_body_fields (rule_from_pattern_ok h)).2.2.2.2.2.1
    rw [hf, hd, hn]
    rfl
  · intro s
    simp [tailOk]

/-- Witness for the amended C6 at the concrete pattern `build/`. -/
theorem c6_dir_only_amended_witness :
    (ruleOf "build/").regex.tail = RTail.eosOrSep :=
  c6_dir_only_amended.1 [] "build/".data (some ⟨true, []⟩) none
    (ruleOf "build/") rfl rfl rfl

theorem stripSpacesLoop_exit {p : List Char} {i : Nat} {flag : Bool}
    (h : ¬p[i]? = some ' ') : stripSpacesLoop p i flag = p := by
  cases i with
  | zero => rfl
  | succ i1 =>
    cases i1 with
    | zero => rfl
    | succ j =>
      simp only [stripSpacesLoop]
      rw [if_neg h]

theorem stripSpacesLoop_nobs {p : List Char} (hnb : '\\' ∉ p) :
    ∀ i : Nat, stripSpacesLoop p i false = p := by
  intro i
  induction i using Nat.strong_induction_on with
  | _ i ih =>
    cases i with
    | zero => rfl
    | succ i1 =>
      cases i1 with
      | zero => rfl
      | succ j =>
        simp only [stripSpacesLoop]
        by_cases hsp : p[j + 2]? = some ' '
        · rw [if_pos hsp]
          have hbs : ¬p[j + 1]? = some '\\' := by
            intro hb
            exact hnb (List.getElem?_mem hb)
          rw [if_neg hbs]
          rw [if_neg (by simp : ¬(false = true))]
          exact ih (j + 1) (by omega)
        · rw [if_neg hsp]

theorem stripSpacesLoop_rep (u : List Char) (hu2 : 2 ≤ u.length)
    (hsp : u.getLast? ≠ some ' ') (hbs : u.getLast? ≠ some '\\') :
    ∀ k : Nat,
      stripSpacesLoop (u ++ List.replicate k ' ') (u.length + k - 1) true = u := by
  intro k
  induction k with
  | zero =>
    simp only [List.replicate_zero, List.append_nil, Nat.add_zero]
    apply stripSpacesLoop_exit
    rw [← List.getLast?_eq_getElem?]
    exact hsp
  | succ k ih =>
    have hilen : u.length + (k + 1) - 1 = u.length + k := by omega
    rw [hilen]
    obtain ⟨j, hj⟩ : ∃ j, u.length + k = j + 2 := ⟨u.length + k - 2, by omega⟩
    rw [hj]
    simp only [stripSpacesLoop]
    have hsp2 : (u ++ List.replicate (k + 1) ' ')[j + 2]? = some ' ' := by
      rw [← hj, List.getElem?_append_right (by omega), List.getElem?_replicate]
      rw [if_pos (by omega)]
    rw [if_pos hsp2]
    have hnbs : ¬(u ++ List.replicate (k + 1) ' ')[j + 1]? = some '\\' := by
      cases k with
      | zero =>
        have hj1 : j + 1 = u.length - 1 := by omega
        rw [hj1, List.getElem?_append_left (by omega)]
        rw [← List.getLast?_eq_getElem?]
        exact hbs
      | succ k2 =>
        have hj1 : u.length ≤ j + 1 := by omega
        rw [List.getElem?_append_right hj1, List.getElem?_replicate]
        rw [if_pos (by omega)]
        simp
    rw [if_neg hnbs, if_pos trivial]
    have htake : (u ++ List.replicate (k + 1) ' ').take (j + 2) =
        u ++ List.replicate k ' ' := by
      rw [← hj, List.take_append, List.take_replicate,
        Nat.min_eq_left (Nat.le_succ k)]
    rw [htake]
    have hidx : j + 1 = u.length + k - 1 := by omega
    rw [hidx]
    exact ih

theorem stripSpaces_escaped (u : List Char) (hu : 1 ≤ u.length)
    (hnb : '\\' ∉ u) :
    stripSpaces (u ++ ['\\', ' ']) = u ++ [' '] := by
  unfold stripSpaces
  have hlen : (u ++ ['\\', ' ']).length - 1 = u.length + 1 := by simp
  rw [hlen]
  obtain ⟨j, hj⟩ : ∃ j, u.length + 1 = j + 2 := ⟨u.length - 1, by omega⟩
  rw [hj]
  simp only [stripSpacesLoop]
  have hj2 : j + 2 = u.length + 1 := hj.symm
  have hsp : (u ++ ['\\', ' '])[j + 2]? = some ' ' := by
    rw [hj2, List.getElem?_append_right (by omega)]
    rw [show u.length + 1 - u.length = 1 from by omega]
    rfl
  rw [if_pos hsp]
  have hbs : (u ++ ['\\', ' '])[j + 1]? = some '\\' := by
    have hj1 : j + 1 = u.length := by omega
    rw [hj1, List.getElem?_append_right (by omega)]
    rw [show u.length - u.length = 0 from by omega]
    rfl
  rw [if_pos hbs]
  have hp : (u ++ ['\\', ' ']).take (j + 1) ++ (u ++ ['\\', ' ']).drop (j + 2) =
      u ++ [' '] := by
    have hj1 : j + 1 = u.length := by omega
    rw [hj1, hj2]
    rw [List.take_left' rfl]
    rw [show u ++ ['\\', ' '] = (u ++ ['\\']) ++ [' '] from by simp]
    rw [List.drop_left' (by simp)]
  rw [hp]
  apply stripSpacesLoop_nobs
  intro hmem
  rcases List.mem_append.mp hmem with hm | hm
  · exact hnb hm
  · simp at hm

theorem stripSpaces_double_backslash (u : List Char) :
    stripSpaces (u ++ ['\\', '\\', ' ']) = u ++ ['\\', ' '] := by
  unfold stripSpaces
  rw [show (u ++ ['\\', '\\', ' ']).length - 1 = u.length + 2 from by simp]
  simp only [stripSpacesLoop]
  have hsp : (u ++ ['\\', '\\', ' '])[u.length + 2]? = some ' ' := by
    rw [List.getElem?_append_right (by omega)]
    rw [show u.length + 2 - u.length = 2 from by omega]
    rfl
  rw [if_pos hsp]
  have hbs : (u ++ ['\\', '\\', ' '])[u.length + 1]? = some '\\' := by
    rw [List.getElem?_append_right (by omega)]
    rw [show u.length + 1 - u.length = 1 from by omega]
    rfl
  rw [if_pos hbs]
  have hp : (u ++ ['\\', '\\', ' ']).take (u.length + 1)
      ++ (u ++ ['\\', '\\', ' ']).drop (u.length + 2) = u ++ ['\\', ' '] := by
    rw [show u ++ ['\\', '\\', ' '] = (u ++ ['\\']) ++ ['\\', ' '] from by simp]
    rw [List.take_left' (by simp)]
    rw [show (u ++ ['\\']) ++ ['\\', ' '] = ((u ++ ['\\']) ++ ['\\']) ++ [' ']
      from by simp]
    rw [List.drop_left' (by simp)]
    simp
  rw [hp]
  apply stripSpacesLoop_exit
  rw [List.getElem?_append_right (by omega)]
  rw [show u.length - u.length = 0 from by omega]
  intro hcontra
  simp at hcontra

/-- Counterexample to claim C8 as stated: the pattern `a` followed by one
space keeps its unescaped trailing space (the loop never strips at index
`≤ 1`), so the space does affect matching. -/
theorem c8_trailing_space_counterexample :
    stripSpaces "a ".data = ['a', ' ']
    ∧ tryMatch "a " (absQuery ["a"]) = some false
    ∧ tryMatch "a " (absQuery ["a "]) = some true :=
  ⟨rfl, rfl, rfl⟩

/-- Claim C8 as amended: trailing unescaped spaces are stripped one at a
time scanning from the end, but only at (0-based) indices `≥ 2` (so a
pattern whose residual has length `≥ 2` before the spaces loses them all);
an escaped trailing space keeps the space, drops the backslash, disables
further stripping, and skips past the kept space (the escape branch
decrements the scan index twice), so a pattern ending in two backslashes
and a space keeps one backslash and the space; and a trailing space at
index `≤ 1` (as in the two-character pattern `a` + space) is kept and
affects matching. -/
theorem c8_trailing_space_amended :
    (∀ (u : List Char) (k : Nat), 2 ≤ u.length →
      u.getLast? ≠ some ' ' → u.getLast? ≠ some '\\' →
      stripSpaces (u ++ List.replicate k ' ') = u)
    ∧ (∀ u : List Char, 1 ≤ u.length → '\\' ∉ u →
      stripSpaces (u ++ ['\\', ' ']) = u ++ [' '])
    ∧ (∀ u : List Char, stripSpaces (u ++ ['\\', '\\', ' ']) = u ++ ['\\', ' '])
    ∧ stripSpaces ['a', 'b', '\\', '\\', ' '] = ['a', 'b', '\\', ' ']
    ∧ stripSpaces ['a', 'b', '\\', ' '] = ['a', 'b', ' ']
    ∧ stripSpaces "a ".data = "a ".data := by
  refine ⟨?_, fun u hu hnb => stripSpaces_escaped u hu hnb,
    stripSpaces_double_backslash, rfl, rfl, rfl⟩
  intro u k hu2 hsp hbs
  unfold stripSpaces
  rw [show (u ++ List.replicate k ' ').length - 1 = u.length + k - 1 from by simp]
  exact stripSpacesLoop_rep u hu2 hsp hbs k

/-- Witness for the amended C8: three unescaped trailing spaces after `ab`
are stripped; an escaped space after `x` keeps the literal space; after
`xy` a double backslash and a space keep one backslash and the space. -/
theorem c8_trailing_space_amended_witness :
    stripSpaces ("ab".data ++ List.replicate 3 ' ') = "ab".data
    ∧ stripSpaces ("x".data ++ ['\\', ' ']) = "x".data ++ [' ']
    ∧ stripSpaces ("xy".data ++ ['\\', '\\', ' ']) = "xy".data ++ ['\\', ' '] :=
  ⟨c8_trailing_space_amended.1 "ab".data 3 (by decide) (by decide) (by decide),
   c8_trailing_space_amended.2.1 "x".data (by decide) (by decide),
   c8_trailing_space_amended.2.2.1 "xy".data⟩

theorem list_contains_iff_mem {l : List Char} {a : Char} :
    l.contains a = true ↔ a ∈ l := List.elem_iff

theorem sub1Go_sublist : ∀ (m : Bool) (p : List Char), (sub1Go m p).Sublist p := by
  intro m p
  induction m, p using sub1Go.induct with
  | case1 m => simp [sub1Go]
  | case2 mode c rest h ih =>
    rw [sub1Go.eq_def]
    dsimp only
    rw [if_pos h]
    exact ih.cons c
  | case3 mode rest h ih =>
    rw [sub1Go.eq_def]
    dsimp only
    rw [if_neg h, if_pos rfl]
    exact ih.cons₂ '/'
  | case4 mode c h2 h1 r1 r2 rest2 h ih =>
    rw [sub1Go.eq_def]
    dsimp only
    rw [if_neg h2, if_neg h1, if_pos h]
    obtain ⟨rfl, rfl⟩ := h
    exact ((ih.cons '*').cons₂ '*').cons₂ c
  | case5 mode c h2 h1 r1 r2 rest2 h ih =>
    rw [sub1Go.eq_def]
    dsimp only
    rw [if_neg h2, if_neg h1, if_neg h]
    exact ih.cons₂ c
  | case6 mode c h1 h0 r hnc ih =>
    rw [sub1Go.eq_def]
    dsimp only
    rw [if_neg h1, if_neg h0]
    cases r with
    | nil => exact ih.cons₂ c
    | cons a t =>
      cases t with
      | nil => exact ih.cons₂ c
      | cons b t2 => exact (hnc a b t2 rfl).elim

theorem sub2Go_sublist : ∀ (st : Option Nat) (p : List Char),
    (∀ k, st = some k → 1 ≤ k) →
    (sub2Go st p).Sublist
      ((match st with
        | none => ([] : List Char)
        | some k => List.replicate k '*') ++ p) := by
  intro st p
  induction st, p using sub2Go.induct with
  | case1 =>
    intro _
    simp [sub2Go]
  | case2 rest ih =>
    intro _
    have h1 := ih (by intro k hk; injection hk with h2; omega)
    rw [sub2Go.eq_def]
    dsimp only
    rw [if_pos rfl]
    simpa using h1
  | case3 c rest h ih =>
    intro _
    rw [sub2Go.eq_def]
    dsimp only
    rw [if_neg h]
    simpa using (ih (by intro k hk; exact absurd hk (by simp))).cons₂ c
  | case4 =>
    intro _
    simp [sub2Go]
  | case5 k h =>
    intro hk
    have hk1 : 1 ≤ k := hk k rfl
    rw [sub2Go.eq_def]
    dsimp only
    rw [if_neg h, List.append_nil]
    have h2 : (['*', '*'] : List Char) = List.replicate 2 '*' := rfl
    rw [h2]
    exact (List.replicate_sublist_replicate '*').mpr (by omega)
  | case6 k rest ih =>
    intro _
    have h1 := ih (by intro k' hk'; injection hk' with h2; omega)
    rw [sub2Go.eq_def]
    dsimp only
    rw [if_pos rfl]
    have heq : List.replicate k '*' ++ '*' :: rest
        = List.replicate (k + 1) '*' ++ rest := by
      rw [List.replicate_succ']
      simp
    rw [heq]
    simpa using h1
  | case7 k rest h ih =>
    intro hk
    have hk1 : 1 ≤ k := hk k rfl
    have hrec := ih (by intro k' hk'; exact absurd hk' (by simp))
    simp only [List.nil_append] at hrec
    rw [sub2Go.eq_def]
    dsimp only
    rw [if_neg h, if_pos rfl]
    apply List.Sublist.append
    · by_cases h3 : 3 ≤ k
      · rw [if_pos h3]
        have h2 : (['*', '*'] : List Char) = List.replicate 2 '*' := rfl
        rw [h2]
        exact (List.replicate_sublist_replicate '*').mpr (by omega)
      · rw [if_neg h3]
    · exact hrec.cons₂ '/'
  | case8 k c rest h1 h2 ih =>
    intro hk
    have hk1 : 1 ≤ k := hk k rfl
    have hrec := ih (by intro k' hk'; exact absurd hk' (by simp))
    simp only [List.nil_append] at hrec
    rw [sub2Go.eq_def]
    dsimp only
    rw [if_neg h1, if_neg h2]
    have hk2 : List.replicate k '*' = '*' :: List.replicate (k - 1) '*' := by
      cases k with
      | zero => omega
      | succ k2 => simp [List.replicate_succ]
    rw [hk2]
    refine List.Sublist.cons₂ '*' ?_
    exact (hrec.cons₂ c).trans (List.sublist_append_right _ _)

theorem sub1_sublist (p : List Char) : (sub1 p).Sublist p := sub1Go_sublist false p

theorem sub2_sublist (p : List Char) : (sub2 p).Sublist p := by
  have h := sub2Go_sublist none p (by intro k hk; exact absurd hk (by simp))
  simpa using h

theorem collapsed_sublist (p : List Char) (hbang : ¬p.head? = some '!') :
    (collapsed p).Sublist p := by
  unfold collapsed
  rw [if_neg (by simpa using hbang)]
  exact (sub2_sublist (sub1 p)).trans (sub1_sublist p)

theorem dropLast_contains_slash_iff (l : List Char) :
    l.dropLast.contains '/' = true ↔ ∃ a b, l = a ++ '/' :: b ∧ b ≠ [] := by
  constructor
  · intro h
    have hmem : '/' ∈ l.dropLast := list_contains_iff_mem.mp h
    clear h
    induction l using List.reverseRecOn with
    | nil => simp at hmem
    | append_singleton init lastc ih =>
      rw [List.dropLast_concat] at hmem
      obtain ⟨s, t, hst⟩ := List.append_of_mem hmem
      refine ⟨s, t ++ [lastc], ?_, by simp⟩
      rw [hst]
      simp
  · rintro ⟨a, b, rfl, hb⟩
    apply list_contains_iff_mem.mpr
    rw [List.dropLast_append_cons]
    cases b with
    | nil => exact absurd rfl hb
    | cons x b2 =>
      rw [List.dropLast_cons₂]
      simp

theorem sublist_inner_slash {q p : List Char} (hsub : q.Sublist p)
    (h : q.dropLast.contains '/' = true) : p.dropLast.contains '/' = true := by
  obtain ⟨a, b, rfl, hb⟩ := (dropLast_contains_slash_iff q).mp h
  obtain ⟨r1, r2, rfl, ha, hsb⟩ := List.append_sublist_iff.mp hsub
  obtain ⟨s1, s2, rfl, hmem, hb2⟩ := List.cons_sublist_iff.mp hsb
  obtain ⟨m1, m2, rfl⟩ := List.append_of_mem hmem
  have hs2 : s2 ≠ [] := by
    intro h0
    rw [h0, List.sublist_nil] at hb2
    exact hb hb2
  apply (dropLast_contains_slash_iff _).mpr
  refine ⟨r1 ++ m1, m2 ++ s2, by simp, ?_⟩
  intro h0
  rw [List.append_eq_nil] at h0
  exact hs2 h0.2

theorem reSearch_anchored_eq (g : GRegex) (s : List Char)
    (ha : g.anchored = true) : reSearch g s = matchStr s g.tail g.body := by
  simp [reSearch, ha]

theorem reSearch_unanchored_iff (g : GRegex) (s : List Char)
    (ha : g.anchored = false) :
    reSearch g s = true ↔
      (matchStr s g.tail g.body = true ∨
        ∃ u v, s = u ++ '/' :: v ∧ matchStr v g.tail g.body = true) := by
  rw [reSearch, if_neg (by simp [ha])]
  rw [Bool.or_eq_true]
  exact or_congr Iff.rfl (searchSep_iff _ _ _)

theorem reSearch_depth (g : GRegex) (pre s : List Char)
    (ha : g.anchored = false) (h : reSearch g s = true) :
    reSearch g (pre ++ '/' :: s) = true := by
  rcases (reSearch_unanchored_iff g s ha).mp h with h1 | ⟨u, v, rfl, hv⟩
  · exact (reSearch_unanchored_iff g _ ha).mpr (Or.inr ⟨pre, s, rfl, h1⟩)
  · refine (reSearch_unanchored_iff g _ ha).mpr
      (Or.inr ⟨pre ++ '/' :: u, v, ?_, hv⟩)
    simp

theorem rule_unanchored_of_no_inner_slash (cwd : List String) (p : List Char)
    (bp : Option PyPath) (src : Option (List Char × Nat)) (r : Rule)
    (h : rule_from_pattern cwd p bp src = .ok (some r))
    (hbang : ¬p.head? = some '!')
    (hns : p.dropLast.contains '/' = false) :
    r.regex.anchored = false := by
  obtain ⟨-, -, -, hanch, hregex, -, -⟩ := rule_body_fields (rule_from_pattern_ok h)
  rw [hregex, hanch]
  cases hc : (collapsed p).dropLast.contains '/' with
  | false =>
    unfold codeAnchored
    rw [hc]
    exact ite_self false
  | true =>
    have hup := sublist_inner_slash (collapsed_sublist p hbang) hc
    rw [hup] at hns
    exact absurd hns (by simp)

/-- Claim C3: anchoring semantics. An anchored compiled regex searches exactly
as a match starting at position 0 of the relative path; an unanchored one
succeeds exactly when the body matches at the path start or immediately after
some separator, so a successful unanchored match survives prefixing extra
directories. Consequently a pattern with no leading bang and no slash outside
its last character compiles to an unanchored rule. Concretely the pattern
star-dot-pyc matches a/b/c.pyc at depth three, while the leading-slash
pattern /root.txt does not match sub/root.txt though it matches root.txt. -/
theorem c3_anchoring :
    (∀ (g : GRegex) (s : List Char), g.anchored = true →
      reSearch g s = matchStr s g.tail g.body)
    ∧ (∀ (g : GRegex) (s : List Char), g.anchored = false →
      (reSearch g s = true ↔
        (matchStr s g.tail g.body = true ∨
          ∃ u v, s = u ++ '/' :: v ∧ matchStr v g.tail g.body = true)))
    ∧ (∀ (g : GRegex) (pre s : List Char), g.anchored = false →
      reSearch g s = true → reSearch g (pre ++ '/' :: s) = true)
    ∧ (∀ (cwd : List String) (p : List Char) (bp : Option PyPath)
        (src : Option (List Char × Nat)) (r : Rule),
      rule_from_pattern cwd p bp src = .ok (some r) →
      ¬p.head? = some '!' →
      p.dropLast.contains '/' = false →
      r.regex.anchored = false)
    ∧ tryMatch "*.pyc" (absQuery ["a", "b", "c.pyc"]) = some true
    ∧ tryMatch "/root.txt" (absQuery ["sub", "root.txt"]) = some false
    ∧ tryMatch "/root.txt" (absQuery ["root.txt"]) = some true := by
  refine ⟨reSearch_anchored_eq, reSearch_unanchored_iff, reSearch_depth,
    ?_, rfl, rfl, rfl⟩
  intro cwd p bp src r h hbang hns
  exact rule_unanchored_of_no_inner_slash cwd p bp src r h hbang hns

theorem c3_anchoring_witness :
    reSearch (ruleOf "/root.txt").regex ("root.txt").data
      = matchStr ("root.txt").data (ruleOf "/root.txt").regex.tail
          (ruleOf "/root.txt").regex.body
    ∧ reSearch (ruleOf "*.pyc").regex (("a").data ++ '/' :: ("c.pyc").data)
        = true
    ∧ (ruleOf "*.pyc").regex.anchored = false :=
  ⟨c3_anchoring.1 (ruleOf "/root.txt").regex ("root.txt").data rfl,
   c3_anchoring.2.2.1 (ruleOf "*.pyc").regex ("a").data ("c.pyc").data rfl rfl,
   c3_anchoring.2.2.2.1 [] ("*.pyc").data (some ⟨true, []⟩) none
     (ruleOf "*.pyc") rfl (by decide) rfl⟩
